import Mathlib

/-!
Verification development for the AI4VisualNovel repository.

The definitions below are shallow embeddings of the Python sources:
  * `src/game_engine/data.py`   — `StoryParser` (`parse_script`, `parse_story`, `_parse_line`)
  * `src/agents/story_graph.py` — `StoryGraph` (adjacency, `topological_sort`)
  * `src/workflow.py`           — `_build_long_term_memory`, `_get_ancestors`
  * `src/game_engine/scenes.py` — `DialogueScene` (`load_line`, `_check_condition`,
    `_skip_to_else_or_endif`, `_skip_to_endif`, `make_choice`)

Python strings are modelled as `List Char` where character-level scanning is
needed; machine-level concerns (rendering, file I/O, LLM calls) are outside the
embedded core, matching the spec's scope.
-/

namespace AIVN

/-! ## Python string helpers -/

/-- The whitespace class used by Python's `str.strip` and `\s` on the ASCII
range (the engine's input lines are produced by `split('\n')` and stripped, so
the exotic Unicode spaces never decide a branch). -/
def pyIsSpace (c : Char) : Bool :=
  c = ' ' || c = '\t' || c = '\n' || c = Char.ofNat 11 || c = Char.ofNat 12 || c = '\r'

/-- Python `str.strip()`. -/
def pyStrip (l : List Char) : List Char :=
  ((l.dropWhile pyIsSpace).reverse.dropWhile pyIsSpace).reverse

/-- Python `str.split('\n')`. -/
def splitNl (l : List Char) : List (List Char) :=
  match l with
  | [] => [[]]
  | c :: rest =>
    let r := splitNl rest
    if c = '\n' then [] :: r
    else match r with
      | [] => [[c]]
      | h :: t => (c :: h) :: t

/-- Value of a nonempty all-digit string, as produced by a `(\d+)` regex group
(Python's `int` cannot fail on such a group). -/
def digitsVal (l : List Char) : Nat :=
  l.foldl (fun n c => n * 10 + (c.toNat - '0'.toNat)) 0

/-- `int()` applied to a candidate digit string: fails unless the string is a
nonempty run of decimal digits.  Modelling the conversion as fallible keeps the
"parsing never raises" claim meaningful. -/
def intOfDigits (l : List Char) : Except Unit Nat :=
  if l ≠ [] ∧ l.all Char.isDigit then .ok (digitsVal l) else .error ()

/-- Association-list lookup (Python `dict.get`). -/
def getA {k v : Type} [BEq k] : List (k × v) → k → Option v
  | [], _ => none
  | (a, b) :: t, key => if a == key then some b else getA t key

/-- Association-list store (Python `dict[key] = val`): replaces in place,
appends new keys at the end (dict insertion order). -/
def setA {k v : Type} [BEq k] : List (k × v) → k → v → List (k × v)
  | [], key, val => [(key, val)]
  | (a, b) :: t, key, val =>
    if a == key then (a, val) :: t else (a, b) :: setA t key val

/-- Lexicographic code-point comparison on character lists — the string order
used by Python `sorted` on `str` (and the order of Lean's `String` `<`). -/
def charListLt : List Char → List Char → Bool
  | [], [] => false
  | [], _ :: _ => true
  | _ :: _, [] => false
  | a :: as, b :: bs =>
    if a.toNat < b.toNat then true
    else if b.toNat < a.toNat then false
    else charListLt as bs

def strLtB (a b : String) : Bool := charListLt a.data b.data

/-- Insertion of a string into a sorted list (ascending). -/
def insertSorted (a : String) : List String → List String
  | [] => [a]
  | b :: t => if strLtB a b then a :: b :: t else b :: insertSorted a t

/-- Python `sorted` on a list of strings. -/
def sortStr (l : List String) : List String := l.foldr insertSorted []

theorem mem_insertSorted (a x : String) (l : List String) :
    x ∈ insertSorted a l ↔ x = a ∨ x ∈ l := by
  induction l with
  | nil => simp [insertSorted]
  | cons b t ih =>
    cases h : strLtB a b
    · simp only [insertSorted, h, Bool.false_eq_true, if_false, List.mem_cons, ih]
      tauto
    · simp [insertSorted, h]

theorem mem_sortStr (x : String) (l : List String) :
    x ∈ sortStr l ↔ x ∈ l := by
  induction l with
  | nil => simp [sortStr]
  | cons b t ih =>
    simp only [sortStr, List.foldr] at ih ⊢
    rw [mem_insertSorted]
    simp [ih]

/-! ## Script instructions

`ScriptInstruction` values are the string-tagged dictionaries produced by
`StoryParser._parse_line` / `parse_story` and consumed by
`DialogueScene.load_line` (src/game_engine/data.py, scenes.py).  The `jump`
and `scene` tags are never produced by the parser but are dispatched on by the
interpreter, so they are part of the instruction type. -/

inductive Instr where
  | ifCond (role : String) (level : Nat)
  | elseMark
  | endifMark
  | image (value : String)
  | narrator (text : String)
  | dialogue (speaker text emotion : String)
  | background (value : String)
  | sceneTag (value : String)
  | jump (target : Option String)
  | choiceStart
  | choiceOption (index : Nat) (text effect : String) (target : Option String)
  | sound (value : String)
deriving DecidableEq, Repr

def isIf : Instr → Bool
  | .ifCond _ _ => true
  | _ => false

def isElse : Instr → Bool
  | .elseMark => true
  | _ => false

def isEndif : Instr → Bool
  | .endifMark => true
  | _ => false

def isChoiceOption : Instr → Bool
  | .choiceOption _ _ _ _ => true
  | _ => false

def isJump : Instr → Bool
  | .jump _ => true
  | _ => false

/-! ## Line matchers (data.py `_parse_line` regexes)

Each matcher reproduces one `re.match` pattern of `StoryParser._parse_line`,
including the lazy/greedy backtracking behaviour of the original pattern. -/

/-- Tail of `\[IF: (.+?) >= (\d+)\]` after the lazy group: a literal `" >= "`,
a maximal nonempty digit run, then `']'`. -/
def ifTail (rest : List Char) : Option (List Char) :=
  match rest with
  | ' ' :: '>' :: '=' :: ' ' :: r2 =>
    if r2.takeWhile Char.isDigit ≠ [] ∧
        (r2.drop (r2.takeWhile Char.isDigit).length).head? = some ']' then
      some (r2.takeWhile Char.isDigit)
    else none
  | _ => none

/-- Lazy scan for `(.+?)` before the ` >= (\d+)\]` tail: the group grows one
character at a time (never across `'\n'`, which `.` does not match) and the
first position where the tail matches wins. -/
def matchIFAux : List Char → List Char → Option (List Char × List Char)
  | _, [] => none
  | acc, c :: rest =>
    if c = '\n' then none
    else
      let acc' := acc ++ [c]
      match ifTail rest with
      | some ds => some (acc', ds)
      | none => matchIFAux acc' rest

/-- `re.match(r'\[IF: (.+?) >= (\d+)\]', line)`: returns (role group, digit
group). -/
def matchIF (l : List Char) : Option (List Char × List Char) :=
  match l with
  | '[' :: 'I' :: 'F' :: ':' :: ' ' :: rest => matchIFAux [] rest
  | _ => none

/-- Lazy group before a closing `']'` (used by `\[IMAGE: (.+?)\]` and the
choice-effect group `\[(.+?)\]`): at least one character, stopping at the
first `']'` thereafter. -/
def bracketLazyAux : List Char → List Char → Option (List Char)
  | _, [] => none
  | acc, c :: rest =>
    if c = '\n' then none
    else
      let acc' := acc ++ [c]
      if rest.head? = some ']' then some acc' else bracketLazyAux acc' rest

/-- `re.match(r'\[IMAGE: (.+?)\]', line)`. -/
def matchIMAGE (l : List Char) : Option (List Char) :=
  match l with
  | '[' :: 'I' :: 'M' :: 'A' :: 'G' :: 'E' :: ':' :: ' ' :: rest =>
    bracketLazyAux [] rest
  | _ => none

/-- Greedy `\s*` backtracking for the dialogue pattern `[：:]\s*(.+)`: after
the colon, consume maximal whitespace, then `(.+)` needs one non-newline
character; if the rest is empty the `\s*` gives characters back one at a time
(so a line `"abc:   "` yields the final space as group 2, exactly as
`re.match` does). -/
def dlgGroup2 (tail : List Char) : Option (List Char) :=
  let ws := tail.takeWhile pyIsSpace
  let rest := tail.drop ws.length
  if rest ≠ [] then some (rest.takeWhile (fun c => c ≠ '\n'))
  else
    match ws.reverse.dropWhile (fun c => c = '\n') with
    | [] => none
    | c :: _ => some [c]

/-- `re.match(r'([^:：]+)[：:]\s*(.+)', line)`: group 1 is the maximal
nonempty run of non-colon characters, which must be followed by a colon. -/
def matchDialogue (l : List Char) : Option (List Char × List Char) :=
  let isColon : Char → Bool := fun c => c = ':' || c = '：'
  let g1 := l.takeWhile (fun c => !isColon c)
  if g1 ≠ [] then
    match l.drop g1.length with
    | c :: tail => if isColon c then (dlgGroup2 tail).map (fun g2 => (g1, g2)) else none
    | [] => none
  else none

/-- Tail of `选项(\d+): (.+?) → \[(.+?)\]` after the lazy text group: literal
`" → ["`, then the lazy effect group up to `']'`. -/
def choiceTail (rest : List Char) : Option (List Char) :=
  match rest with
  | ' ' :: '→' :: ' ' :: '[' :: r2 => bracketLazyAux [] r2
  | _ => none

/-- Lazy scan for the choice text group. -/
def matchChoiceAux : List Char → List Char → Option (List Char × List Char)
  | _, [] => none
  | acc, c :: rest =>
    if c = '\n' then none
    else
      let acc' := acc ++ [c]
      match choiceTail rest with
      | some eff => some (acc', eff)
      | none => matchChoiceAux acc' rest

/-- `re.match(r'选项(\d+): (.+?) → \[(.+?)\]', line)`: returns (index digits,
text group, effect group). -/
def matchChoice (l : List Char) : Option (List Char × List Char × List Char) :=
  match l with
  | '选' :: '项' :: rest =>
    if rest.takeWhile Char.isDigit ≠ [] then
      match rest.drop (rest.takeWhile Char.isDigit).length with
      | ':' :: ' ' :: r2 =>
        (matchChoiceAux [] r2).map (fun p => (rest.takeWhile Char.isDigit, p.1, p.2))
      | _ => none
    else none
  | _ => none

/-! ## `StoryParser._parse_line` (data.py lines 147-212)

The function receives an already-stripped line and tries the patterns in the
source's fixed order (first match wins).  It returns `Except` so that the one
operation that could raise in Python (`int` on a regex group) is modelled as a
fallible step; `none` models "no pattern matched" (Python `return None`). -/

/-- The tail of `_parse_line` reached when the dialogue pattern does not
produce a result (no match, or the speaker guard fails): the `[CHOICE]`,
`选项N`, and `SOUND_EFFECT` patterns, then `return None`. -/
def parse_lineTail (l : List Char) : Except Unit (Option Instr) :=
  if l = "[CHOICE]".toList then .ok (some .choiceStart)
  else
    match matchChoice l with
    | some (ds, txt, eff) =>
      (intOfDigits ds).map fun n =>
        some (.choiceOption n (String.mk txt) (String.mk eff) none)
    | none =>
      if "SOUND_EFFECT:".toList.isPrefixOf l then
        .ok (some (.sound (String.mk (pyStrip (l.drop 13)))))
      else .ok none

def parse_lineC (l : List Char) : Except Unit (Option Instr) :=
  match matchIF l with
  | some (role, ds) =>
    (intOfDigits ds).map fun n => some (.ifCond (String.mk role) n)
  | none =>
  if l = "[ELSE]".toList then .ok (some .elseMark)
  else if l = "[ENDIF]".toList then .ok (some .endifMark)
  else match matchIMAGE l with
  | some v => .ok (some (.image (String.mk v)))
  | none =>
  if "旁白:".toList.isPrefixOf l then
    .ok (some (.narrator (String.mk (pyStrip (l.drop 3)))))
  else if "NARRATOR:".toList.isPrefixOf l then
    .ok (some (.narrator (String.mk (pyStrip (l.drop 9)))))
  else if "主角:".toList.isPrefixOf l then
    .ok (some (.dialogue "主角" (String.mk (pyStrip (l.drop 3))) "neutral"))
  else if "PROTAGONIST:".toList.isPrefixOf l then
    .ok (some (.dialogue "主角" (String.mk (pyStrip (l.drop 12))) "neutral"))
  else
  -- dialogue pattern; on a match the speaker guard may still fall through
  match matchDialogue l with
  | some (g1, g2) =>
    if pyStrip g1 ≠ [] ∧ ¬ "选项".toList.isPrefixOf (pyStrip g1) ∧
        (pyStrip g1).length < 20 then
      .ok (some (.dialogue (String.mk (pyStrip g1)) (String.mk (pyStrip g2))
        "neutral"))
    else parse_lineTail l
  | none => parse_lineTail l

/-- `StoryParser._parse_line` on a `String`. -/
def parse_line (line : String) : Except Unit (Option Instr) :=
  parse_lineC line.toList

/-- Lines skipped by both `parse_script` and `parse_story` (blank lines, the
generator's boilerplate header, `=== End` markers). -/
def skipLine (l : List Char) : Bool :=
  l.isEmpty || "这里为您生成".toList.isPrefixOf l || "=== End".toList.isPrefixOf l

/-- Loop body of `StoryParser.parse_script` (data.py lines 56-68). -/
def parse_script_lines : List (List Char) → Except Unit (List Instr)
  | [] => .ok []
  | raw :: rest =>
    if skipLine (pyStrip raw) then parse_script_lines rest
    else
      (parse_lineC (pyStrip raw)).bind fun p =>
        (parse_script_lines rest).map fun tail =>
          match p with
          | some i => i :: tail
          | none => tail

/-- `StoryParser.parse_script`. -/
def parse_script (text : String) : Except Unit (List Instr) :=
  parse_script_lines (splitNl (pyStrip text.toList))

/-! ## `StoryParser.parse_story` (data.py lines 70-145)

The document is partitioned by `=== Group g - Block b ===` headers (legacy
`Week`/`Day` accepted) and `## scene` headers into a nested
group → block → scene map.  Mutation of the nested Python dicts is modelled by
`setA`/`getA`; a missing key on read (Python `KeyError`) is an `Except.error`. -/

/-- `re.match(r'=== (?:Group|Week) (\d+) - (?:Block|Day) (\d+) ===', line)`:
returns the two digit groups. -/
def matchGroupBlock (l : List Char) : Option (List Char × List Char) :=
  match l with
  | '=' :: '=' :: '=' :: ' ' :: rest =>
    let afterKind :=
      if "Group ".toList.isPrefixOf rest then some (rest.drop 6)
      else if "Week ".toList.isPrefixOf rest then some (rest.drop 5)
      else none
    match afterKind with
    | none => none
    | some r1 =>
      let d1 := r1.takeWhile Char.isDigit
      if d1 ≠ [] ∧ " - ".toList.isPrefixOf (r1.drop d1.length) then
        let r2 := (r1.drop d1.length).drop 3
        let afterKind2 :=
          if "Block ".toList.isPrefixOf r2 then some (r2.drop 6)
          else if "Day ".toList.isPrefixOf r2 then some (r2.drop 4)
          else none
        match afterKind2 with
        | none => none
        | some r3 =>
          let d2 := r3.takeWhile Char.isDigit
          if d2 ≠ [] ∧ " ===".toList.isPrefixOf (r3.drop d2.length) then
            some (d1, d2)
          else none
      else none
  | _ => none

/-- `re.match(r'## (.+)', line)`. -/
def matchSceneHead (l : List Char) : Option (List Char) :=
  match l with
  | '#' :: '#' :: ' ' :: rest =>
    let g := rest.takeWhile (fun c => c ≠ '\n')
    if g ≠ [] then some g else none
  | _ => none

/-- The nested map `{group: {block: {scene_name: [instr]}}}`. -/
abbrev SceneMap := List (String × List Instr)
abbrev BlockMap := List (Nat × SceneMap)
abbrev GroupMap := List (Nat × BlockMap)

/-- Mutable loop state of `parse_story`. -/
structure PSState where
  groups : GroupMap
  curG : Nat
  curB : Nat
  curT : String
  curLines : List Instr
deriving Repr

/-- `groups[current_group][current_block][current_time] = current_lines`
(raises `KeyError` if the group or block key is missing). -/
def psSave (st : PSState) : Except Unit GroupMap :=
  match getA st.groups st.curG with
  | none => .error ()
  | some inner =>
    match getA inner st.curB with
    | none => .error ()
    | some smap =>
      .ok (setA st.groups st.curG
            (setA inner st.curB (setA smap st.curT st.curLines)))

/-- One iteration of the `parse_story` line loop. -/
def parse_story_step (st : PSState) (raw : List Char) : Except Unit PSState := do
  let line := pyStrip raw
  if skipLine line then return st
  match matchGroupBlock line with
  | some (d1, d2) => do
    let g ← intOfDigits d1
    let b ← intOfDigits d2
    let groups1 :=
      if (getA st.groups g).isNone then setA st.groups g [] else st.groups
    let inner := (getA groups1 g).getD []
    let groups2 :=
      if (getA inner b).isNone then setA groups1 g (setA inner b []) else groups1
    return { st with groups := groups2, curG := g, curB := b }
  | none =>
  match matchSceneHead line with
  | some content => do
    -- save the previous scene (into the *current* group/block keys)
    let groups' ←
      if st.curT ≠ "" ∧ st.curLines ≠ [] then psSave st else pure st.groups
    -- current_time = f"scene_{len(groups[cg][cb]) + 1}"  (KeyError if missing)
    match getA groups' st.curG with
    | none => .error ()
    | some inner =>
      match getA inner st.curB with
      | none => .error ()
      | some smap =>
        let location := String.mk (pyStrip content)
        return { st with
          groups := groups'
          curT := "scene_" ++ toString (smap.length + 1)
          curLines := [Instr.background location] }
  | none =>
    if st.curG ≠ 0 ∧ st.curB ≠ 0 ∧ st.curT ≠ "" then do
      let p ← parse_lineC line
      return { st with
        curLines := st.curLines ++ (match p with | some i => [i] | none => []) }
    else return st

/-- `StoryParser.parse_story`. -/
def parse_story (text : String) : Except Unit GroupMap := do
  let final ← (splitNl (pyStrip text.toList)).foldlM parse_story_step
    { groups := [], curG := 0, curB := 0, curT := "", curLines := [] }
  if final.curG ≠ 0 ∧ final.curB ≠ 0 ∧ final.curT ≠ "" ∧ final.curLines ≠ [] then
    psSave final
  else
    return final.groups

/-! ## `StoryGraph` (src/agents/story_graph.py)

`nodes` is the key list of the `nodes` dict (dict keys are distinct and keep
insertion order); `edges` carries `from`/`to`/`choice_text`.  The adjacency
dicts built in `_load_dag_format` append per edge in edge order, which the
filter-based views below reproduce (under the edge-validity invariant checked
by `validate`, which is also the hypothesis of the claims below). -/

structure StoryEdge where
  src : String
  tgt : String
  choiceText : Option String
deriving DecidableEq, Repr

structure StoryGraphM where
  nodes : List String
  edges : List StoryEdge
deriving DecidableEq, Repr

/-- Every edge endpoint names an existing node (checked by
`StoryGraph.validate`; required for the adjacency-building loop not to raise). -/
def ValidEdges (g : StoryGraphM) : Prop :=
  ∀ e ∈ g.edges, e.src ∈ g.nodes ∧ e.tgt ∈ g.nodes

instance (g : StoryGraphM) : Decidable (ValidEdges g) := by
  unfold ValidEdges; infer_instance

/-- `StoryGraph.get_children`. -/
def get_children (g : StoryGraphM) (n : String) : List (String × Option String) :=
  (g.edges.filter (fun e => e.src == n)).map (fun e => (e.tgt, e.choiceText))

/-- `StoryGraph.get_parents`. -/
def get_parents (g : StoryGraphM) (n : String) : List String :=
  (g.edges.filter (fun e => e.tgt == n)).map (fun e => e.src)

/-- `StoryGraph.is_merge_point`. -/
def is_merge_point (g : StoryGraphM) (n : String) : Bool :=
  (get_parents g n).length > 1

/-- Child node ids iterated by the Kahn loop (`for child_id, _ in
self.get_children(node_id)`). -/
def childTargets (g : StoryGraphM) (n : String) : List String :=
  (get_children g n).map (fun p => p.1)

/-- The inner `for` loop of `topological_sort`: decrement each child's
in-degree, enqueueing children whose degree reaches zero. -/
def processChildren : List String → (String → Int) → List String →
    ((String → Int) × List String)
  | [], deg, q => (deg, q)
  | c :: cs, deg, q =>
    processChildren cs (Function.update deg c (deg c - 1))
      (if deg c - 1 = 0 then q ++ [c] else q)

/-- The `while queue:` loop of `topological_sort`.  The fuel
`g.nodes.length` bounds the number of iterations: each iteration pops one
queue element and (as proved below) every node is enqueued at most once. -/
def kahnLoop (g : StoryGraphM) :
    Nat → (String → Int) → List String → List String → List String
  | _, _, [], result => result
  | 0, _, _ :: _, result => result
  | fuel + 1, deg, n :: rest, result =>
    kahnLoop g fuel (processChildren (childTargets g n) deg rest).1
      (processChildren (childTargets g n) deg rest).2 (result ++ [n])

/-- `in_degree = {node_id: len(self.get_parents(node_id)) ...}`. -/
def kahnInitDeg (g : StoryGraphM) : String → Int :=
  fun n => ((get_parents g n).length : Int)

/-- `queue = [node_id for node_id, degree in in_degree.items() if degree == 0]`. -/
def kahnInitQueue (g : StoryGraphM) : List String :=
  g.nodes.filter (fun n => kahnInitDeg g n == 0)

def kahnRun (g : StoryGraphM) : List String :=
  kahnLoop g g.nodes.length (kahnInitDeg g) (kahnInitQueue g) []

/-- `StoryGraph.topological_sort`: returns `[]` (with an error log) when the
emitted count differs from the node count, i.e. when a cycle exists. -/
def topological_sort (g : StoryGraphM) : List String :=
  if (kahnRun g).length = g.nodes.length then kahnRun g else []

/-- The edge relation of the graph. -/
def edgeRel (g : StoryGraphM) (a b : String) : Prop :=
  ∃ e ∈ g.edges, e.src = a ∧ e.tgt = b

/-- The graph contains a (nonempty, possibly self-loop) directed cycle. -/
def HasCycle (g : StoryGraphM) : Prop :=
  ∃ v, Relation.TransGen (edgeRel g) v v

/-! ## Ancestor BFS and long-term memory (src/workflow.py lines 903-979) -/

/-- The `while queue:` BFS-upward loop shared by `_get_ancestors` and the
single-parent branch of `_build_long_term_memory`: pop, record unseen
nodes, enqueue their parents.  Each iteration pops one element; at most
`seed.length + edges.length` elements are ever enqueued (unseen nodes are
distinct and contribute their in-edges once), so the fuel below never runs
out and the function computes the same fixpoint as the Python loop. -/
def bfsUpAux (g : StoryGraphM) : Nat → List String → List String → List String
  | 0, vis, _ => vis
  | _ + 1, vis, [] => vis
  | fuel + 1, vis, c :: rest =>
    if c ∈ vis then bfsUpAux g fuel vis rest
    else bfsUpAux g fuel (vis ++ [c]) (rest ++ get_parents g c)

def bfsUp (g : StoryGraphM) (seed : List String) : List String :=
  bfsUpAux g (seed.length + g.edges.length + 1) [] seed

/-- `WorkflowController._get_ancestors` (BFS upward, inclusive of the start
node). -/
def get_ancestors (g : StoryGraphM) (n : String) : List String :=
  bfsUp g [n]

/-- `set.intersection(*ancestor_sets)`: members of the first set lying in all
the others. -/
def commonAncestors (sets : List (List String)) : List String :=
  match sets with
  | [] => []
  | s :: rest => s.filter (fun a => rest.all (fun t => t.contains a))

/-- The ancestor pool of `_build_long_term_memory`: the common ancestors of
all parents at a merge point, all BFS-upward ancestors otherwise. -/
def ltmPool (g : StoryGraphM) (node : String) : List String :=
  if (get_parents g node).length > 1 then
    commonAncestors ((get_parents g node).map (get_ancestors g))
  else
    bfsUp g (get_parents g node)

/-- The ancestor ids whose summaries make it into the memory text: the sorted
pool filtered by presence in the `node_summaries` cache. -/
def ltmIds (g : StoryGraphM) (node : String)
    (summaries : List (String × String)) : List String :=
  (sortStr (ltmPool g node)).filter (fun a => (getA summaries a).isSome)

/-- The `context_parts` list (`f"Node {ancestor_id}: {node_summaries[...]}"`). -/
def ltmParts (g : StoryGraphM) (node : String)
    (summaries : List (String × String)) : List String :=
  (ltmIds g node summaries).map
    (fun a => "Node " ++ a ++ ": " ++ ((getA summaries a).getD ""))

/-- `WorkflowController._build_long_term_memory`. -/
def build_long_term_memory (g : StoryGraphM) (node : String)
    (summaries : List (String × String)) : String :=
  let parents := get_parents g node
  let parts := ltmParts g node summaries
  if parents.length > 1 then
    if parts.isEmpty then "故事开始（多条路径在此汇合）。"
    else String.intercalate "\n" parts
  else
    if parts.isEmpty then "游戏开始。"
    else String.intercalate "\n" parts

/-- A src-to-tgt path in the graph: consecutive elements are edges. -/
def isPath (g : StoryGraphM) (src tgt : String) : List String → Bool
  | [] => false
  | [a] => a == src && a == tgt
  | a :: b :: rest =>
    a == src && g.edges.any (fun e => e.src == a && e.tgt == b) &&
      isPath g b tgt (b :: rest)

/-! ## `DialogueScene` playback (src/game_engine/scenes.py)

`script_lines` is the parser's output list; `self.index` is the instruction
pointer.  The skip scans, condition check and choice handling are embedded
below; rendering (images, fonts, typewriter) is outside the core. -/

/-- The character map of `GameState.characters`: name → field dict.  Only the
integer-valued fields matter to `_check_condition` (it reads
`char_data.get("level", 0)`); an empty field dict is falsy in Python, like a
missing entry. -/
abbrev CharsMap := List (String × List (String × Int))

/-- `DialogueScene._check_condition` (scenes.py lines 398-416): `False`
without a game state; `False` when the role is absent (or its dict empty);
otherwise compare the stored level (default 0) against the target. -/
def check_condition (gameState : Option CharsMap) (roleName : String)
    (targetLevel : Nat) : Bool :=
  match gameState with
  | none => false
  | some chars =>
    match getA chars roleName with
    | none => false
    | some fields =>
      if fields.isEmpty then false
      else ((getA fields "level").getD 0) ≥ (targetLevel : Int)

/-- The scan loop of `_skip_to_else_or_endif` (scenes.py lines 418-434):
`i` is `self.index`, `depth` the nesting counter; returns the final value of
`self.index`. -/
def skipScan (lines : List Instr) (i depth : Nat) : Nat :=
  if h : i + 1 < lines.length then
    match lines.get ⟨i + 1, h⟩ with
    | .ifCond _ _ => skipScan lines (i + 1) (depth + 1)
    | .endifMark => if depth = 0 then i + 1 else skipScan lines (i + 1) (depth - 1)
    | .elseMark => if depth = 0 then i + 1 else skipScan lines (i + 1) depth
    | _ => skipScan lines (i + 1) depth
  else i
termination_by lines.length - i
decreasing_by all_goals omega

/-- `DialogueScene._skip_to_else_or_endif`. -/
def skip_to_else_or_endif (lines : List Instr) (i : Nat) : Nat :=
  skipScan lines i 0

/-- The scan loop of `_skip_to_endif` (scenes.py lines 436-449). -/
def skipScanEndif (lines : List Instr) (i depth : Nat) : Nat :=
  if h : i + 1 < lines.length then
    match lines.get ⟨i + 1, h⟩ with
    | .ifCond _ _ => skipScanEndif lines (i + 1) (depth + 1)
    | .endifMark => if depth = 0 then i + 1 else skipScanEndif lines (i + 1) (depth - 1)
    | _ => skipScanEndif lines (i + 1) depth
  else i
termination_by lines.length - i
decreasing_by all_goals omega

/-- `DialogueScene._skip_to_endif`. -/
def skip_to_endif (lines : List Instr) (i : Nat) : Nat :=
  skipScanEndif lines i 0

/-- Position at which execution resumes after a false `ConditionIf` at `i`:
`load_line` runs `_skip_to_else_or_endif()` and then `self.index += 1`
(scenes.py lines 241-247). -/
def false_if_resume (lines : List Instr) (i : Nat) : Nat :=
  skip_to_else_or_endif lines i + 1

/-- Option collection of the `choice_start` branch (scenes.py lines 350-368):
the contiguous run of `choice_option` instructions following the marker.
(The parser never emits falsy list entries, so the `if not next_line` skip in
the Python loop is unreachable.) -/
def collect_options (lines : List Instr) (i : Nat) : List Instr :=
  (lines.drop (i + 1)).takeWhile isChoiceOption

/-- What one call of `DialogueScene.load_line` does at position `i`, before
any recursive continuation.  There is deliberately no graph parameter: no
branch of `load_line` consults the story graph. -/
inductive LoadAction where
  | endDialogue
  | resumeAt (j : Nat)
  | display (speaker : Option String) (text : String)
  | jumpTo (target : Option String)
  | menu (options : List Instr)
deriving DecidableEq, Repr

/-- Branch dispatch of `DialogueScene.load_line` (scenes.py lines 222-396).
`resumeAt j` means "set `self.index := j` and continue"; `display` is the
state that waits for an advance signal; `jumpTo t` is the branch that assigns
`current_node_id = t` and `scene_index = 0` and replays; `menu` awaits
`make_choice`. -/
def load_line_action (gameState : Option CharsMap) (lines : List Instr)
    (i : Nat) : LoadAction :=
  match lines[i]? with
  | none => .endDialogue
  | some instr =>
    match instr with
    | .ifCond role level =>
      if check_condition gameState role level then .resumeAt (i + 1)
      else .resumeAt (false_if_resume lines i)
    | .elseMark => .resumeAt (skip_to_endif lines i + 1)
    | .endifMark => .resumeAt (i + 1)
    | .background _ => .resumeAt (i + 1)
    | .sceneTag _ => .resumeAt (i + 1)
    | .image _ => .resumeAt (i + 1)
    | .narrator t => .display none t
    | .dialogue sp t _ => .display (some sp) t
    | .jump tgt => .jumpTo tgt
    | .choiceStart =>
      let opts := collect_options lines i
      if opts.isEmpty then .resumeAt (i + 1) else .menu opts
    | .choiceOption _ _ _ _ => .resumeAt (i + 1)
    | .sound _ => .resumeAt (i + 1)

/-- Python truthiness of the `target` field read by `make_choice` (a missing
key or an empty string is falsy). -/
def targetTruthy : Option String → Bool
  | none => false
  | some s => s != ""

/-- Result of `DialogueScene.make_choice` (scenes.py lines 498-529). -/
inductive ChoiceOutcome where
  | jumpChoice (target : String)
  | stay (newIndex : Nat)
deriving DecidableEq, Repr

/-- `DialogueScene.make_choice`: with a truthy target, assign the target node
and replay; otherwise fall through to
`self.index += len(self.choice_options) + 1` and `load_line`. -/
def make_choice (options : List Instr) (curIndex choiceIndex : Nat) :
    ChoiceOutcome :=
  match options[choiceIndex]? with
  | some (.choiceOption _ _ _ tgt) =>
    if targetTruthy tgt then .jumpChoice (tgt.getD "")
    else .stay (curIndex + options.length + 1)
  | _ => .stay (curIndex + options.length + 1)

/-- The navigation state touched by jumps and choices:
`game_state.current_node_id`, `game_state.scene_index`, and the instruction
pointer of the (re)constructed `DialogueScene` (`self.index`, 0 on
construction). -/
structure Session where
  currentNode : Option String
  sceneIndex : Nat
  instrIndex : Nat
deriving DecidableEq, Repr

/-- Effect of `make_choice` on the session: the jump branch sets
`current_node_id = target`, `scene_index = 0` and replays (the new
`DialogueScene` starts at instruction 0); the fall-through branch moves the
pointer past the option block. -/
def apply_choice (sess : Session) (options : List Instr)
    (curIndex choiceIndex : Nat) : Session :=
  match make_choice options curIndex choiceIndex with
  | .jumpChoice t => { currentNode := some t, sceneIndex := 0, instrIndex := 0 }
  | .stay j => { sess with instrIndex := j }

/-! ## Parser totality (claims C4, C8) -/

theorem all_takeWhile (p : Char → Bool) (l : List Char) :
    (l.takeWhile p).all p = true := by
  induction l with
  | nil => rfl
  | cons c t ih =>
    by_cases h : p c <;> simp [List.takeWhile_cons, h, ih]

theorem intOfDigits_ok {ds : List Char} (hne : ds ≠ [])
    (hall : ds.all Char.isDigit) : intOfDigits ds = .ok (digitsVal ds) := by
  simp [intOfDigits, hne, hall]

theorem ifTail_digits {rest ds : List Char} (h : ifTail rest = some ds) :
    ds ≠ [] ∧ ds.all Char.isDigit = true := by
  unfold ifTail at h
  split at h
  · split at h
    · next hc =>
      cases h
      exact ⟨hc.1, all_takeWhile _ _⟩
    · exact absurd h (by simp)
  · exact absurd h (by simp)

theorem matchIFAux_digits {l acc role ds : List Char}
    (h : matchIFAux acc l = some (role, ds)) :
    ds ≠ [] ∧ ds.all Char.isDigit = true := by
  induction l generalizing acc with
  | nil => exact absurd h (by simp [matchIFAux])
  | cons c rest ih =>
    unfold matchIFAux at h
    split at h
    · exact absurd h (by simp)
    · revert h
      cases hit : ifTail rest with
      | some ds' =>
        intro h
        cases h
        exact ifTail_digits hit
      | none => exact fun h => ih h

theorem matchIF_digits {l role ds : List Char}
    (h : matchIF l = some (role, ds)) :
    ds ≠ [] ∧ ds.all Char.isDigit = true := by
  unfold matchIF at h
  split at h
  · exact matchIFAux_digits h
  · exact absurd h (by simp)

theorem matchChoice_digits {l ds t e : List Char}
    (h : matchChoice l = some (ds, t, e)) :
    ds ≠ [] ∧ ds.all Char.isDigit = true := by
  unfold matchChoice at h
  split at h
  · next rest =>
    split at h
    · next hne =>
      split at h
      · cases hmc : matchChoiceAux [] _ <;> rw [hmc] at h <;> simp at h
        obtain ⟨hds, -⟩ := h
        exact ⟨hds ▸ hne, hds ▸ all_takeWhile _ _⟩
      · exact absurd h (by simp)
    · exact absurd h (by simp)
  · exact absurd h (by simp)

theorem parse_lineTail_total (l : List Char) : ∃ r, parse_lineTail l = .ok r := by
  unfold parse_lineTail
  split
  · exact ⟨_, rfl⟩
  · split
    · rename_i ds txt eff hch
      obtain ⟨hne, hall⟩ := matchChoice_digits hch
      rw [intOfDigits_ok hne hall]
      exact ⟨_, rfl⟩
    · split
      · exact ⟨_, rfl⟩
      · exact ⟨_, rfl⟩

/-- `_parse_line` never raises: every line produces `ok` (either an
instruction or `None`). -/
theorem parse_lineC_total (l : List Char) : ∃ r, parse_lineC l = .ok r := by
  unfold parse_lineC
  split
  · rename_i role ds hif
    obtain ⟨hne, hall⟩ := matchIF_digits hif
    rw [intOfDigits_ok hne hall]
    exact ⟨_, rfl⟩
  · repeat' first
    | exact ⟨_, rfl⟩
    | exact parse_lineTail_total l
    | split

theorem parse_script_lines_total (ls : List (List Char)) :
    ∃ r, parse_script_lines ls = .ok r := by
  induction ls with
  | nil => exact ⟨[], rfl⟩
  | cons raw rest ih =>
    obtain ⟨tail, htail⟩ := ih
    unfold parse_script_lines
    split
    · exact ⟨tail, htail⟩
    · obtain ⟨p, hp⟩ := parse_lineC_total (pyStrip raw)
      rw [hp, htail]
      exact ⟨_, rfl⟩

/-- C4.  Parsing is idempotent and total: `StoryParser.parse_script` maps
every input string to an `ok` instruction list (the fallible `int`
conversions always succeed because their regex groups are digit runs), and
being a pure function of the text, parsing the same text twice yields the
same list. -/
theorem C4_parse_script_total_and_idempotent (s : String) :
    (∃ l, parse_script s = Except.ok l) ∧ parse_script s = parse_script s :=
  ⟨parse_script_lines_total _, rfl⟩

theorem parse_lineTail_no_jump (l : List Char) (i : Instr)
    (h : parse_lineTail l = .ok (some i)) : isJump i = false := by
  unfold parse_lineTail at h
  split at h
  · cases h; rfl
  · split at h
    · cases hid : intOfDigits _ <;> rw [hid] at h
      · exact absurd h (by simp [Except.map])
      · simp only [Except.map, Except.ok.injEq, Option.some.injEq] at h
        cases h.symm
        rfl
    · split at h
      · cases h; rfl
      · exact absurd h (by simp)

/-- No branch of `_parse_line` constructs a `jump` instruction. -/
theorem parse_lineC_no_jump (l : List Char) (i : Instr)
    (h : parse_lineC l = .ok (some i)) : isJump i = false := by
  unfold parse_lineC at h
  split at h
  · cases hid : intOfDigits _ <;> rw [hid] at h
    · exact absurd h (by simp [Except.map])
    · simp only [Except.map, Except.ok.injEq, Option.some.injEq] at h
      cases h.symm
      rfl
  · revert h
    repeat' first
    | (intro h; cases h; rfl)
    | (intro h; exact parse_lineTail_no_jump l i h)
    | split

/-! ## Conditional-skip correctness (claim C3) -/

/-- The instructions strictly between positions `i` and `k`. -/
def segBetween (lines : List Instr) (i k : Nat) : List Instr :=
  (lines.drop (i + 1)).take (k - (i + 1))

/-- `k` is a legitimate stop for a skip scan started at `i` with depth `d`:
a depth-0 `Else`/`EndIf`, where "depth 0" means the `If`s opened strictly
inside the scanned region have all been closed (`#EndIf = d + #If`). -/
def SkipStop (lines : List Instr) (i d k : Nat) : Prop :=
  i < k ∧ k < lines.length ∧
  (lines[k]? = some Instr.elseMark ∨ lines[k]? = some Instr.endifMark) ∧
  (segBetween lines i k).countP isEndif = d + (segBetween lines i k).countP isIf

instance (lines : List Instr) (i d k : Nat) : Decidable (SkipStop lines i d k) := by
  unfold SkipStop; infer_instance

theorem segBetween_cons (lines : List Instr) (i k : Nat) (h1 : i + 1 < k)
    (h2 : i + 1 < lines.length) :
    segBetween lines i k =
      lines.get ⟨i + 1, h2⟩ :: segBetween lines (i + 1) k := by
  unfold segBetween
  rw [List.drop_eq_getElem_cons h2]
  have hk : k - (i + 1) = (k - (i + 2)) + 1 := by omega
  rw [hk, List.take_succ_cons]
  rfl

theorem skipStop_shift (lines : List Instr) (i k : Nat) (h2 : i + 1 < lines.length)
    (hik : i + 1 < k) (d d' : Nat)
    (hcase : (isIf (lines.get ⟨i + 1, h2⟩) = true ∧ d' = d + 1) ∨
      (isEndif (lines.get ⟨i + 1, h2⟩) = true ∧ d = d' + 1) ∨
      (isIf (lines.get ⟨i + 1, h2⟩) = false ∧ isEndif (lines.get ⟨i + 1, h2⟩) = false ∧ d' = d)) :
    (SkipStop lines i d k ↔ SkipStop lines (i + 1) d' k) := by
  have hseg := segBetween_cons lines i k hik h2
  unfold SkipStop
  rw [hseg, List.countP_cons, List.countP_cons]
  rcases hcase with ⟨hx, hd⟩ | ⟨hx, hd⟩ | ⟨hx1, hx2, hd⟩
  · have hxe : isEndif (lines.get ⟨i + 1, h2⟩) = false := by
      revert hx; cases lines.get ⟨i + 1, h2⟩ <;> simp [isIf, isEndif]
    rw [hx, hxe]
    constructor <;> rintro ⟨hik', hkl, hm, hc⟩ <;> refine ⟨by omega, hkl, hm, ?_⟩ <;>
      norm_num at hc ⊢ <;> omega
  · have hxi : isIf (lines.get ⟨i + 1, h2⟩) = false := by
      revert hx; cases lines.get ⟨i + 1, h2⟩ <;> simp [isIf, isEndif]
    rw [hx, hxi]
    constructor <;> rintro ⟨hik', hkl, hm, hc⟩ <;> refine ⟨by omega, hkl, hm, ?_⟩ <;>
      norm_num at hc ⊢ <;> omega
  · rw [hx1, hx2]
    constructor <;> rintro ⟨hik', hkl, hm, hc⟩ <;> refine ⟨by omega, hkl, hm, ?_⟩ <;>
      norm_num at hc ⊢ <;> omega

/-- The skip scan returns the *least* legitimate stop: the depth counter never
lets a nested `If`/`EndIf` pair (or a nested `Else`) terminate the scan. -/
theorem skipScan_eq (lines : List Instr) :
    ∀ n i d k, k ≤ i + n → SkipStop lines i d k →
      (∀ j, j < k → ¬ SkipStop lines i d j) → skipScan lines i d = k := by
  intro n
  induction n with
  | zero =>
    intro i d k hle hstop _
    exact absurd hstop.1 (by omega)
  | succ n ih =>
    intro i d k hle hstop hmin
    have hik : i < k := hstop.1
    have hklen : k < lines.length := hstop.2.1
    have hi1len : i + 1 < lines.length := by omega
    have hget : lines[i + 1]? = some (lines.get ⟨i + 1, hi1len⟩) := by
      rw [List.getElem?_eq_getElem hi1len]
      rfl
    unfold skipScan
    rw [dif_pos hi1len]
    by_cases hk1 : k = i + 1
    · -- the stop is the very next instruction: depth must be 0 and it is a marker
      have hseg : segBetween lines i k = [] := by
        unfold segBetween
        rw [hk1]
        simp
      have hd : d = 0 := by
        have hc := hstop.2.2.2
        rw [hseg] at hc
        simpa using hc.symm
      have hm := hstop.2.2.1
      rw [hk1, hget] at hm
      subst hd
      rcases hm with hm | hm <;> rw [Option.some_inj] at hm <;> rw [hm] <;>
        simp [hk1]
    · have hik1 : i + 1 < k := by omega
      have hnot1 : ¬ SkipStop lines i d (i + 1) := hmin (i + 1) hik1
      -- depth ≠ 0 when the next instruction is a marker
      have hdep : ∀ hm : (lines.get ⟨i + 1, hi1len⟩ = Instr.elseMark ∨
          lines.get ⟨i + 1, hi1len⟩ = Instr.endifMark), d ≠ 0 := by
        intro hm hd0
        apply hnot1
        refine ⟨by omega, hi1len, ?_, ?_⟩
        · rcases hm with hm | hm
          · exact Or.inl (by rw [hget, hm])
          · exact Or.inr (by rw [hget, hm])
        · have hseg : segBetween lines i (i + 1) = [] := by
            unfold segBetween
            simp
          rw [hseg, hd0]
          rfl
      -- generic recursion step for a given new depth
      have hstep : ∀ d', ((isIf (lines.get ⟨i + 1, hi1len⟩) = true ∧ d' = d + 1) ∨
          (isEndif (lines.get ⟨i + 1, hi1len⟩) = true ∧ d = d' + 1) ∨
          (isIf (lines.get ⟨i + 1, hi1len⟩) = false ∧
            isEndif (lines.get ⟨i + 1, hi1len⟩) = false ∧ d' = d)) →
          skipScan lines (i + 1) d' = k := by
        intro d' hcase
        apply ih (i + 1) d' k (by omega)
        · exact (skipStop_shift lines i k hi1len hik1 d d' hcase).mp hstop
        · intro j hj hSS
          have hij : i + 1 < j := by
            have := hSS.1
            omega
          exact hmin j hj ((skipStop_shift lines i j hi1len hij d d' hcase).mpr hSS)
      cases hx : lines.get ⟨i + 1, hi1len⟩
      next role lvl =>
        show skipScan lines (i + 1) (d + 1) = k
        exact hstep (d + 1) (Or.inl ⟨by rw [hx]; rfl, rfl⟩)
      next =>
        have hd0 : d ≠ 0 := hdep (Or.inl hx)
        show (if d = 0 then i + 1 else skipScan lines (i + 1) d) = k
        rw [if_neg hd0]
        exact hstep d (Or.inr (Or.inr ⟨by rw [hx]; rfl, by rw [hx]; rfl, rfl⟩))
      next =>
        have hd0 : d ≠ 0 := hdep (Or.inr hx)
        show (if d = 0 then i + 1 else skipScan lines (i + 1) (d - 1)) = k
        rw [if_neg hd0]
        exact hstep (d - 1) (Or.inr (Or.inl ⟨by rw [hx]; rfl, by omega⟩))
      all_goals
        show skipScan lines (i + 1) d = k
      all_goals
        exact hstep d (Or.inr (Or.inr ⟨by rw [hx]; rfl, by rw [hx]; rfl, rfl⟩))

/-! ## Example graphs and scripts used by witnesses and counterexamples -/

/-- The spec's merge example: `root→A→B`, `root→C→B`. -/
def mergeGraph : StoryGraphM :=
  { nodes := ["root", "A", "B", "C"]
    edges := [⟨"root", "A", none⟩, ⟨"root", "C", some "c"⟩,
      ⟨"A", "B", none⟩, ⟨"C", "B", none⟩] }

def mergeSummaries : List (String × String) :=
  [("root", "s0"), ("A", "sa"), ("B", "sb"), ("C", "sc")]

/-- The merge example extended with a single-parent child `D` of the merge
point `B`. -/
def diamondGraph : StoryGraphM :=
  { nodes := ["root", "A", "B", "C", "D"]
    edges := [⟨"root", "A", none⟩, ⟨"root", "C", some "c"⟩,
      ⟨"A", "B", none⟩, ⟨"C", "B", none⟩, ⟨"B", "D", none⟩] }

def diamondSummaries : List (String × String) :=
  [("root", "s0"), ("A", "sa"), ("B", "sb"), ("C", "sc"), ("D", "sd")]

/-- `IF A IF B … ENDIF ELSE … ENDIF`: the outer `Else` is at index 4. -/
def nestedIfLines : List Instr :=
  [.ifCond "A" 1, .ifCond "B" 1, .narrator "x", .endifMark,
   .elseMark, .narrator "y", .endifMark]

/-- A character map in which both roles are at level 0. -/
def lowChars : CharsMap := [("A", [("level", 0)]), ("B", [("level", 0)])]

/-- A one-node graph used to exhibit jump targets absent from the graph. -/
def ghostGraph : StoryGraphM := { nodes := ["root"], edges := [] }

/-- The spec's round-trip example graph: `root→A` (auto), `A→B` ("go"). -/
def lineGraph : StoryGraphM :=
  { nodes := ["root", "A", "B"]
    edges := [⟨"root", "A", none⟩, ⟨"A", "B", some "go"⟩] }

/-! ## Claim C1 — merge-point memory is exactly the common ancestors -/

theorem contains_iff (l : List String) (a : String) :
    l.contains a = true ↔ a ∈ l := by
  induction l with
  | nil => simp
  | cons b t ih => simp_all [List.contains_cons]

/-- C1.  For every graph and every node with more than one parent, the set of
node ids whose summaries are included in the long-term memory built for that
node is exactly the intersection of the BFS-upward (inclusive) ancestor sets
of its parents — provided, as the generation loop guarantees by proceeding in
topological order, that the common ancestors have cached summaries. -/
theorem C1_merge_memory_is_common_ancestors (g : StoryGraphM) (node : String)
    (summaries : List (String × String))
    (hm : 1 < (get_parents g node).length)
    (hs : ∀ a, (∀ p ∈ get_parents g node, a ∈ get_ancestors g p) →
      (getA summaries a).isSome) :
    ∀ a, a ∈ ltmIds g node summaries ↔
      ∀ p ∈ get_parents g node, a ∈ get_ancestors g p := by
  intro a
  unfold ltmIds ltmPool
  rw [if_pos hm, List.mem_filter, mem_sortStr]
  rcases hp : get_parents g node with _ | ⟨q, qs⟩
  · rw [hp] at hm
    simp at hm
  · rw [hp] at hs
    simp only [List.map_cons]
    unfold commonAncestors
    rw [List.mem_filter]
    constructor
    · rintro ⟨⟨hq, hall⟩, hsome⟩
      intro p hp'
      rcases List.mem_cons.mp hp' with rfl | hpq
      · exact hq
      · exact (contains_iff _ _).mp
          ((List.all_eq_true.mp hall) (get_ancestors g p)
            (List.mem_map_of_mem _ hpq))
    · intro hall
      refine ⟨⟨hall q (List.mem_cons_self _ _), ?_⟩, hs a hall⟩
      rw [List.all_eq_true]
      intro t ht
      rcases List.mem_map.mp ht with ⟨p, hpq, rfl⟩
      exact (contains_iff _ _).mpr (hall p (List.mem_cons_of_mem _ hpq))

/-- Witness for C1 on the spec's example `root→A→B`, `root→C→B`: the memory
for `B` includes `root`'s summary and excludes `A`'s and `C`'s, and the built
memory string is exactly root's line. -/
theorem C1_merge_memory_witness :
    (1 < (get_parents mergeGraph "B").length) ∧
    ("root" ∈ ltmIds mergeGraph "B" mergeSummaries ∧
      "A" ∉ ltmIds mergeGraph "B" mergeSummaries ∧
      "C" ∉ ltmIds mergeGraph "B" mergeSummaries) ∧
    build_long_term_memory mergeGraph "B" mergeSummaries = "Node root: s0" := by
  have hs : ∀ a, (∀ p ∈ get_parents mergeGraph "B", a ∈ get_ancestors mergeGraph p) →
      (getA mergeSummaries a).isSome := by
    intro a ha
    have h1 := ha "A" (by decide)
    have h2 := ha "C" (by decide)
    have e1 : get_ancestors mergeGraph "A" = ["A", "root"] := by decide
    have e2 : get_ancestors mergeGraph "C" = ["C", "root"] := by decide
    rw [e1] at h1
    rw [e2] at h2
    have hroot : a = "root" := by
      simp only [List.mem_cons, List.not_mem_nil, or_false] at h1 h2
      rcases h1 with rfl | rfl
      · rcases h2 with h2 | h2 <;> exact absurd h2 (by decide)
      · rfl
    rw [hroot]
    decide
  have h := C1_merge_memory_is_common_ancestors mergeGraph "B" mergeSummaries
    (by decide) hs
  refine ⟨by decide, ⟨(h "root").mpr (by decide), ?_, ?_⟩, by decide⟩
  · intro hmem
    exact absurd ((h "A").mp hmem "C" (by decide)) (by decide)
  · intro hmem
    exact absurd ((h "C").mp hmem "A" (by decide)) (by decide)

/-! ## Claim C3 — false-condition skip resumes right after the matched marker -/

/-- C3.  When `load_line` hits `ConditionIf(role, level)` at position `i` and
the condition evaluates false, it resumes execution at `k + 1`, where `k` is
the *first* position after `i` holding a depth-0 `Else` or `EndIf` (depth-0:
the `If`s opened strictly inside the scanned region are balanced by `EndIf`s,
so nested pairs never terminate the scan early). -/
theorem C3_false_if_skip_resumes_after_marker (gs : Option CharsMap)
    (lines : List Instr) (i : Nat) (role : String) (lvl : Nat) (k : Nat)
    (hline : lines[i]? = some (Instr.ifCond role lvl))
    (hcond : check_condition gs role lvl = false)
    (hstop : SkipStop lines i 0 k)
    (hmin : ∀ j, j < k → ¬ SkipStop lines i 0 j) :
    load_line_action gs lines i = .resumeAt (k + 1) ∧
      (lines[k]? = some Instr.elseMark ∨ lines[k]? = some Instr.endifMark) := by
  have hscan : skipScan lines i 0 = k :=
    skipScan_eq lines k i 0 k (by omega) hstop hmin
  constructor
  · unfold load_line_action
    rw [hline]
    show (if check_condition gs role lvl then LoadAction.resumeAt (i + 1)
      else LoadAction.resumeAt (false_if_resume lines i)) = _
    have hfalse : ¬ (check_condition gs role lvl = true) := by
      rw [hcond]
      simp
    rw [if_neg hfalse]
    unfold false_if_resume skip_to_else_or_endif
    rw [hscan]
  · exact hstop.2.2.1

/-- Witness for C3 on `IF A IF B … ENDIF ELSE … ENDIF` with the outer
condition false: execution resumes at 5, exactly after the outer `Else`
(index 4). -/
theorem C3_false_if_skip_witness :
    check_condition (some lowChars) "A" 1 = false ∧
    SkipStop nestedIfLines 0 0 4 ∧ (∀ j, j < 4 → ¬ SkipStop nestedIfLines 0 0 j) ∧
    (load_line_action (some lowChars) nestedIfLines 0 = .resumeAt 5 ∧
      (nestedIfLines[4]? = some Instr.elseMark ∨
        nestedIfLines[4]? = some Instr.endifMark)) :=
  ⟨by decide, by decide, by decide,
    C3_false_if_skip_resumes_after_marker (some lowChars) nestedIfLines 0 "A" 1 4
      (by decide) (by decide) (by decide) (by decide)⟩

/-! ## Claim C5 — `parse_story` does not partition by `=== Node: <id> ===` -/

/-- C5 (code bug).  The generator (`_save_node_story`, workflow.py:981) writes
per-node sections delimited by `=== Node: <id> ===`, but the engine parser
`parse_story` only partitions by `=== Group g - Block b ===` and `## scene`
headers: a node-delimited document produces an *empty* map (the `Node` marker
line itself would be read as a dialogue line if a scene were open), while a
Group/Block document is what actually gets partitioned. -/
theorem C5_parse_story_node_marker_bug :
    parse_story "=== Node: n1 ===\n旁白: 你好" = Except.ok [] ∧
    parse_story "=== Group 1 - Block 1 ===\n## 教室\n旁白: 你好" =
      Except.ok [(1, [(1, [("scene_1",
        [Instr.background "教室", Instr.narrator "你好"])])])] := by
  constructor <;> rfl

/-! ## Claim C6 — unknown jump/choice targets are not surfaced as errors -/

/-- Counterexample to C6: jumping (or choosing) a target absent from the
story graph is executed as a perfectly normal navigation action.  The
embedded `load_line` dispatch and `make_choice` have *no* failure outcome and
take no graph argument at all, because the Python branches
(scenes.py:342-348, 498-529) assign `current_node_id = target` without any
lookup; the claimed "hard error surfaced to the caller" does not exist. -/
theorem C6_counterexample_unknown_target_no_error :
    load_line_action none [Instr.jump (some "ghost")] 0 = .jumpTo (some "ghost") ∧
    ("ghost" ∉ ghostGraph.nodes) ∧
    apply_choice ⟨none, 0, 0⟩ [Instr.choiceOption 1 "t" "e" (some "ghost")] 0 0 =
      ⟨some "ghost", 0, 0⟩ :=
  ⟨rfl, by decide, rfl⟩

theorem make_choice_jump (opts : List Instr) (cur k idx : Nat)
    (txt eff s : String)
    (hk : opts[k]? = some (.choiceOption idx txt eff (some s))) (hs : s ≠ "") :
    make_choice opts cur k = .jumpChoice s := by
  unfold make_choice
  rw [hk]
  have ht : targetTruthy (some s) = true := by
    unfold targetTruthy
    simp [hs]
  show (if targetTruthy (some s) then ChoiceOutcome.jumpChoice ((some s).getD "")
    else ChoiceOutcome.stay (cur + opts.length + 1)) = _
  rw [ht]
  rfl

theorem make_choice_stay_none (opts : List Instr) (cur k idx : Nat)
    (txt eff : String)
    (hk : opts[k]? = some (.choiceOption idx txt eff none)) :
    make_choice opts cur k = .stay (cur + opts.length + 1) := by
  unfold make_choice
  rw [hk]
  rfl

/-- C6 (amended).  Jump and choice targets are applied without validation:
the engine assigns `current_node_id := target` and resets the scene/
instruction position for *any* target string, never consulting the story
graph and never raising. -/
theorem C6_jump_and_choice_apply_target_unvalidated :
    (∀ (gs : Option CharsMap) (lines : List Instr) (i : Nat) (t : Option String),
      lines[i]? = some (Instr.jump t) → load_line_action gs lines i = .jumpTo t) ∧
    (∀ (sess : Session) (opts : List Instr) (cur k idx : Nat) (txt eff s : String),
      opts[k]? = some (.choiceOption idx txt eff (some s)) → s ≠ "" →
      apply_choice sess opts cur k =
        { currentNode := some s, sceneIndex := 0, instrIndex := 0 }) := by
  constructor
  · intro gs lines i t h
    unfold load_line_action
    rw [h]
  · intro sess opts cur k idx txt eff s hk hs
    unfold apply_choice
    rw [make_choice_jump opts cur k idx txt eff s hk hs]

/-- Witness for the amended C6 at a concrete unknown target. -/
theorem C6_unvalidated_witness :
    load_line_action (some []) [Instr.jump (some "n9")] 0 = .jumpTo (some "n9") ∧
    apply_choice ⟨none, 1, 2⟩ [Instr.choiceOption 1 "x" "" (some "n9")] 5 0 =
      ⟨some "n9", 0, 0⟩ :=
  ⟨C6_jump_and_choice_apply_target_unvalidated.1 (some []) _ 0 _ rfl,
   C6_jump_and_choice_apply_target_unvalidated.2 ⟨none, 1, 2⟩ _ 5 0 1 "x" "" "n9"
     rfl (by decide)⟩

/-! ## Claim C7 — the sibling-branch exclusion fails below a merge point -/

/-- Counterexample to C7: in `root→A→B`, `root→C→B`, `B→D`, the memory built
for the single-parent node `D` includes `A`'s summary even though
`["root","C","B","D"]` is a root-to-`D` path avoiding `A` — so an ancestor on
only *some* of the root-to-node paths does leak into the memory. -/
theorem C7_counterexample_sibling_branch_in_memory :
    "A" ∈ ltmIds diamondGraph "D" diamondSummaries ∧
    isPath diamondGraph "root" "D" ["root", "C", "B", "D"] = true ∧
    "A" ∉ (["root", "C", "B", "D"] : List String) ∧
    build_long_term_memory diamondGraph "D" diamondSummaries =
      "Node A: sa\nNode B: sb\nNode C: sc\nNode root: s0" := by
  refine ⟨by decide, by decide, by decide, by decide⟩

/-- C7 (amended).  For a single-parent node the memory is built from *all*
BFS-upward ancestors of its parent (filtered only by summary availability),
with no common-ancestor intersection — so ancestors lying on only some
root-to-node paths are included; the intersection guarantee applies only at
merge points themselves. -/
theorem C7_single_parent_memory_is_all_bfs_ancestors (g : StoryGraphM)
    (node : String) (summaries : List (String × String)) (p : String)
    (hp : get_parents g node = [p]) :
    ∀ a, a ∈ ltmIds g node summaries ↔
      (a ∈ get_ancestors g p ∧ (getA summaries a).isSome) := by
  intro a
  unfold ltmIds ltmPool
  rw [hp, if_neg (by simp), List.mem_filter, mem_sortStr]
  unfold get_ancestors
  exact Iff.rfl

/-- Witness for the amended C7 at node `D` of the diamond graph. -/
theorem C7_single_parent_witness :
    (get_parents diamondGraph "D" = ["B"]) ∧
    "A" ∈ ltmIds diamondGraph "D" diamondSummaries :=
  ⟨by decide,
    (C7_single_parent_memory_is_all_bfs_ancestors diamondGraph "D"
      diamondSummaries "B" (by decide) "A").mpr (by decide)⟩

/-! ## Claim C8 — the grammar has no jump marker -/

/-- Counterexample to C8: no input line whatsoever parses to a `Jump`
instruction — the claimed jump marker does not exist in `_parse_line`'s
grammar (the `jump` instruction type is only ever *consumed* by
`load_line`). -/
theorem C8_counterexample_no_line_parses_to_jump :
    ¬ ∃ (line : String) (i : Instr),
      parse_line line = Except.ok (some i) ∧ isJump i = true := by
  rintro ⟨line, i, h, hj⟩
  rw [parse_lineC_no_jump line.toList i h] at hj
  exact absurd hj (by simp)

/-- C8 (amended).  The line grammar contains no jump marker: every
successfully parsed instruction is something other than `jump`. -/
theorem C8_parser_never_emits_jump (line : String) (i : Instr)
    (h : parse_line line = Except.ok (some i)) : isJump i = false :=
  parse_lineC_no_jump line.toList i h

/-- Witness for the amended C8 at a concrete line. -/
theorem C8_parser_never_emits_jump_witness :
    parse_line "[ELSE]" = Except.ok (some Instr.elseMark) ∧
      isJump Instr.elseMark = false :=
  ⟨rfl, C8_parser_never_emits_jump "[ELSE]" Instr.elseMark rfl⟩

/-! ## Claim C9 — a role with no stored value is not "treated as level 0" -/

/-- Counterexample to C9: a role absent from the character map makes the
condition unconditionally false — even for required level 0, where genuine
"level 0" semantics (shown on the right) yields true. -/
theorem C9_counterexample_missing_role_unconditionally_false :
    check_condition (some [("Alice", [("level", 3)])]) "Bob" 0 = false ∧
    check_condition (some [("Bob", [("level", 0)])]) "Bob" 0 = true := by
  constructor <;> rfl

/-- C9 (amended).  `_check_condition` returns `False` outright when there is
no game state, when the role is absent from the character map, or when its
record is empty; only a *present, nonempty* record without a stored `level`
field falls back to level 0. -/
theorem C9_condition_fallback_semantics :
    (∀ role lvl, check_condition none role lvl = false) ∧
    (∀ chars role lvl, getA chars role = none →
      check_condition (some chars) role lvl = false) ∧
    (∀ chars role lvl, getA chars role = some [] →
      check_condition (some chars) role lvl = false) ∧
    (∀ chars role lvl fields, getA chars role = some fields → fields ≠ [] →
      getA fields "level" = none →
      check_condition (some chars) role lvl = decide ((0 : Int) ≥ (lvl : Int))) := by
  refine ⟨fun _ _ => rfl, ?_, ?_, ?_⟩
  · intro chars role lvl h
    simp [check_condition, h]
  · intro chars role lvl h
    simp [check_condition, h]
  · intro chars role lvl fields h hne hl
    have hemp : fields.isEmpty = false := by
      cases fields
      · exact absurd rfl hne
      · rfl
    simp [check_condition, h, hemp, hl]

/-- Witness for the amended C9. -/
theorem C9_condition_fallback_witness :
    check_condition (some [("Alice", [("level", 3)])]) "Bob" 5 = false ∧
    check_condition (some [("Bob", [])]) "Bob" 0 = false ∧
    check_condition (some [("Bob", [("met", 1)])]) "Bob" 0 =
      decide ((0 : Int) ≥ ((0 : Nat) : Int)) :=
  ⟨C9_condition_fallback_semantics.2.1 _ "Bob" 5 rfl,
   C9_condition_fallback_semantics.2.2.1 _ "Bob" 0 rfl,
   C9_condition_fallback_semantics.2.2.2 _ "Bob" 0 _ rfl (by decide) rfl⟩

/-! ## Claim C10 — choice resolution -/

/-- C10.  Choosing an option with a (truthy) target sets `current_node` to
that target and resets the instruction pointer to 0; choosing an option with
no target resumes the same node at `i + len(options) + 1`, which is exactly
the position immediately after the contiguous option block collected behind
the `choice_start` marker at `i`. -/
theorem C10_make_choice_target_semantics (sess : Session) (lines : List Instr)
    (i : Nat) (_hcs : lines[i]? = some Instr.choiceStart)
    (opts : List Instr) (ho : opts = collect_options lines i)
    (k idx : Nat) (txt eff : String) (tgt : Option String)
    (hk : opts[k]? = some (.choiceOption idx txt eff tgt)) :
    (∀ s, tgt = some s → s ≠ "" →
      apply_choice sess opts i k =
        { currentNode := some s, sceneIndex := 0, instrIndex := 0 }) ∧
    (tgt = none →
      apply_choice sess opts i k = { sess with instrIndex := i + opts.length + 1 } ∧
      i + opts.length + 1 =
        (i + 1) + ((lines.drop (i + 1)).takeWhile isChoiceOption).length) := by
  constructor
  · rintro s rfl hs
    unfold apply_choice
    rw [make_choice_jump opts i k idx txt eff s hk hs]
  · rintro rfl
    constructor
    · unfold apply_choice
      rw [make_choice_stay_none opts i k idx txt eff hk]
    · rw [ho]
      unfold collect_options
      omega

/-- Witness for C10: a two-option menu where option 0 jumps to `B` and
option 1 has no target and falls through to index 3 (right after the option
block). -/
theorem C10_make_choice_witness :
    apply_choice ⟨none, 7, 9⟩
      [Instr.choiceOption 1 "go" "e" (some "B"), Instr.choiceOption 2 "st" "e" none]
      0 0 = ⟨some "B", 0, 0⟩ ∧
    apply_choice ⟨some "n", 7, 9⟩
      [Instr.choiceOption 1 "go" "e" (some "B"), Instr.choiceOption 2 "st" "e" none]
      0 1 = ⟨some "n", 7, 3⟩ := by
  have hlines : ([Instr.choiceStart, Instr.choiceOption 1 "go" "e" (some "B"),
      Instr.choiceOption 2 "st" "e" none] : List Instr)[0]? =
      some Instr.choiceStart := rfl
  have h0 := C10_make_choice_target_semantics ⟨none, 7, 9⟩
    [Instr.choiceStart, Instr.choiceOption 1 "go" "e" (some "B"),
      Instr.choiceOption 2 "st" "e" none] 0 hlines
    [Instr.choiceOption 1 "go" "e" (some "B"), Instr.choiceOption 2 "st" "e" none]
    (by decide) 0 1 "go" "e" (some "B") rfl
  have h1 := C10_make_choice_target_semantics ⟨some "n", 7, 9⟩
    [Instr.choiceStart, Instr.choiceOption 1 "go" "e" (some "B"),
      Instr.choiceOption 2 "st" "e" none] 0 hlines
    [Instr.choiceOption 1 "go" "e" (some "B"), Instr.choiceOption 2 "st" "e" none]
    (by decide) 1 2 "st" "e" none rfl
  exact ⟨h0.1 "B" rfl (by decide), (h1.2 rfl).1⟩

/-! ## Claim C2 — correctness of `topological_sort` (Kahn's algorithm)

The development follows the loop structure: an invariant `KahnInv` over
(degrees, queue, emitted result), preserved by each pop (`kahn_step`, via the
inner-loop invariant `MidInv`), yields on termination that a full-length
result is an edge-respecting permutation and that a short result leaves a
subgraph in which every node has an unemitted predecessor — which produces a
cycle by iterating predecessors. -/

section KahnProof

variable {α : Type}

theorem countP_le_of_imp (p q : α → Bool) :
    ∀ l : List α, (∀ a ∈ l, p a = true → q a = true) →
      l.countP p ≤ l.countP q := by
  intro l h
  induction l with
  | nil => simp
  | cons a t ih =>
    have ht := ih (fun b hb => h b (List.mem_cons_of_mem _ hb))
    rw [List.countP_cons, List.countP_cons]
    by_cases hpa : p a = true
    · rw [hpa, h a (List.mem_cons_self _ _) hpa]
      omega
    · rw [Bool.not_eq_true] at hpa
      rw [hpa]
      simp only [Bool.false_eq_true, if_false]
      by_cases hqa : q a = true <;> simp [hqa] <;> omega

theorem forall_of_countP_eq (p q : α → Bool) :
    ∀ l : List α, (∀ a ∈ l, p a = true → q a = true) →
      l.countP p = l.countP q → ∀ a ∈ l, q a = true → p a = true := by
  intro l
  induction l with
  | nil =>
    intro _ _ a ha
    exact absurd ha (List.not_mem_nil a)
  | cons a t ih =>
    intro himp heq b hb hqb
    have himp_t : ∀ c ∈ t, p c = true → q c = true :=
      fun c hc => himp c (List.mem_cons_of_mem _ hc)
    have hle_t := countP_le_of_imp p q t himp_t
    rw [List.countP_cons, List.countP_cons] at heq
    have hhead : (if p a then 1 else 0) ≤ (if q a then 1 else 0) := by
      by_cases hpa : p a = true
      · rw [hpa, himp a (List.mem_cons_self _ _) hpa]
      · rw [Bool.not_eq_true] at hpa
        rw [hpa]
        by_cases hqa : q a = true <;> simp [hqa]
    have heq_t : t.countP p = t.countP q := by omega
    rcases List.mem_cons.mp hb with rfl | hbt
    · -- heads must agree too
      by_cases hpa : p b = true
      · exact hpa
      · rw [Bool.not_eq_true] at hpa
        rw [hpa, hqb] at heq
        simp at heq
        omega
    · exact ih himp_t heq_t b hbt hqb

theorem exists_of_countP_lt (p q : α → Bool) (l : List α)
    (hlt : l.countP p < l.countP q) :
    ∃ a ∈ l, q a = true ∧ p a = false := by
  by_contra hno
  push_neg at hno
  have hrev : ∀ a ∈ l, q a = true → p a = true := by
    intro a ha hq
    have hnf := hno a ha hq
    cases hb : p a
    · exact absurd hb hnf
    · rfl
  have := countP_le_of_imp q p l hrev
  omega

/-- Number of edges into `b` (the initial in-degree when edges are valid). -/
def indegC (g : StoryGraphM) (b : String) : Nat :=
  g.edges.countP (fun e => e.tgt == b)

/-- Number of edges into `b` whose source has already been emitted. -/
def processedCount (g : StoryGraphM) (result : List String) (b : String) : Nat :=
  g.edges.countP (fun e => e.tgt == b && decide (e.src ∈ result))

theorem get_parents_length (g : StoryGraphM) (b : String) :
    (get_parents g b).length = indegC g b := by
  unfold get_parents indegC
  rw [List.length_map, ← List.countP_eq_length_filter]

theorem processedCount_le (g : StoryGraphM) (result : List String) (b : String) :
    processedCount g result b ≤ indegC g b := by
  apply countP_le_of_imp
  intro e _ hp
  exact (Bool.and_eq_true_iff.mp hp).1

theorem processedCount_nil (g : StoryGraphM) (b : String) :
    processedCount g [] b = 0 := by
  unfold processedCount
  rw [List.countP_eq_zero]
  intro e _
  simp

theorem processedCount_append (g : StoryGraphM) (b n : String)
    (result : List String) (hn : n ∉ result) :
    processedCount g (result ++ [n]) b =
      processedCount g result b +
        g.edges.countP (fun e => e.tgt == b && e.src == n) := by
  unfold processedCount
  induction g.edges with
  | nil => rfl
  | cons e t ih =>
    simp only [List.countP_cons]
    rw [ih]
    have hsplit : (if (e.tgt == b && decide (e.src ∈ result ++ [n])) = true
          then 1 else 0)
        = (if (e.tgt == b && decide (e.src ∈ result)) = true then 1 else 0)
          + (if (e.tgt == b && (e.src == n)) = true then 1 else 0) := by
      by_cases h1 : e.src ∈ result <;> by_cases h2 : e.src = n <;>
        by_cases h3 : e.tgt = b
      · exact absurd (h2 ▸ h1) hn
      · exact absurd (h2 ▸ h1) hn
      all_goals simp [List.mem_append, h1, h2, h3, hn]
    omega

theorem childTargets_countP (g : StoryGraphM) (n b : String) :
    (childTargets g n).countP (fun x => x == b) =
      g.edges.countP (fun e => e.tgt == b && e.src == n) := by
  unfold childTargets get_children
  rw [List.map_map, List.countP_map, List.countP_filter]
  rfl

theorem processChildren_deg : ∀ (cs : List String) (deg : String → Int)
    (q : List String) (b : String),
    (processChildren cs deg q).1 b =
      deg b - ((cs.countP (fun x => x == b) : Nat) : Int) := by
  intro cs
  induction cs with
  | nil => intro deg q b; simp [processChildren]
  | cons c t ih =>
    intro deg q b
    unfold processChildren
    rw [ih]
    rw [List.countP_cons]
    rw [Function.update_apply]
    by_cases hb : b = c
    · subst hb
      simp only [if_pos rfl, beq_self_eq_true, if_true]
      push_cast
      ring
    · have hcb : (c == b) = false := by simp [Ne.symm hb]
      rw [if_neg hb, hcb]
      simp

/-- Invariant of the inner decrement loop: `R` is the emitted list including
the node just popped, `cs` the children still to process, `deg`/`q` the
current degrees and queue. -/
structure MidInv (g : StoryGraphM) (R : List String) (cs : List String)
    (deg : String → Int) (q : List String) : Prop where
  nodup : (R ++ q).Nodup
  subset : ∀ m ∈ R ++ q, m ∈ g.nodes
  degEq : ∀ b, deg b = (indegC g b : Int) - (processedCount g R b : Int) +
    (cs.countP (fun x => x == b) : Int)
  zeroMem : ∀ b ∈ g.nodes, deg b = 0 → b ∈ R ++ q
  memZero : ∀ b ∈ R ++ q, deg b ≤ 0
  csNodes : ∀ c ∈ cs, c ∈ g.nodes

theorem processChildren_midinv (g : StoryGraphM) (R : List String) :
    ∀ (cs : List String) (deg : String → Int) (q : List String),
      MidInv g R cs deg q →
      MidInv g R [] (processChildren cs deg q).1 (processChildren cs deg q).2 := by
  intro cs
  induction cs with
  | nil => intro deg q h; exact h
  | cons c cs' ih =>
    intro deg q h
    have hcnode : c ∈ g.nodes := h.csNodes c (List.mem_cons_self _ _)
    have hdegEq' : ∀ b, Function.update deg c (deg c - 1) b =
        (indegC g b : Int) - (processedCount g R b : Int) +
          (cs'.countP (fun x => x == b) : Int) := by
      intro b
      rw [Function.update_apply]
      by_cases hb : b = c
      · subst hb
        have := h.degEq b
        rw [List.countP_cons] at this
        simp only [beq_self_eq_true, if_true] at this
        rw [if_pos rfl]
        push_cast at this ⊢
        omega
      · rw [if_neg hb]
        have := h.degEq b
        rw [List.countP_cons] at this
        have hcb : (c == b) = false := by simp [Ne.symm hb]
        rw [hcb] at this
        simpa using this
    show MidInv g R []
      (processChildren cs' (Function.update deg c (deg c - 1))
        (if deg c - 1 = 0 then q ++ [c] else q)).1
      (processChildren cs' (Function.update deg c (deg c - 1))
        (if deg c - 1 = 0 then q ++ [c] else q)).2
    apply ih
    by_cases hd : deg c - 1 = 0
    · -- the child's degree reaches 0: it is enqueued, and it is fresh
      have hdc : deg c = 1 := by omega
      have hfresh : c ∉ R ++ q := by
        intro hc
        have := h.memZero c hc
        omega
      rw [if_pos hd]
      refine ⟨?_, ?_, hdegEq', ?_, ?_, fun x hx => h.csNodes x (List.mem_cons_of_mem _ hx)⟩
      · have h1 : ((R ++ q) ++ [c]).Nodup := by
          rw [List.nodup_append]
          refine ⟨h.nodup, List.nodup_singleton c, ?_⟩
          intro x hx hxc
          rw [List.mem_singleton] at hxc
          subst hxc
          exact hfresh hx
        rw [← List.append_assoc]
        exact h1
      · intro m hm
        rw [← List.append_assoc] at hm
        rcases List.mem_append.mp hm with hm | hm
        · exact h.subset m hm
        · rw [List.mem_singleton] at hm
          exact hm ▸ hcnode
      · intro b hb h0
        rw [Function.update_apply] at h0
        by_cases hbc : b = c
        · subst hbc
          rw [← List.append_assoc, List.mem_append]
          exact Or.inr (by simp)
        · rw [if_neg hbc] at h0
          have := h.zeroMem b hb h0
          rw [← List.append_assoc, List.mem_append]
          rcases List.mem_append.mp this with hm | hm
          · exact Or.inl (List.mem_append.mpr (Or.inl hm))
          · exact Or.inl (List.mem_append.mpr (Or.inr hm))
      · intro b hb
        rw [Function.update_apply]
        by_cases hbc : b = c
        · rw [if_pos hbc]
          omega
        · rw [if_neg hbc]
          rw [← List.append_assoc, List.mem_append] at hb
          rcases hb with hb | hb
          · exact h.memZero b hb
          · rw [List.mem_singleton] at hb
            exact absurd hb hbc
    · rw [if_neg hd]
      refine ⟨h.nodup, h.subset, hdegEq', ?_, ?_,
        fun x hx => h.csNodes x (List.mem_cons_of_mem _ hx)⟩
      · intro b hb h0
        rw [Function.update_apply] at h0
        by_cases hbc : b = c
        · subst hbc
          rw [if_pos rfl] at h0
          exact absurd h0 hd
        · rw [if_neg hbc] at h0
          exact h.zeroMem b hb h0
      · intro b hb
        rw [Function.update_apply]
        by_cases hbc : b = c
        · subst hbc
          rw [if_pos rfl]
          have := h.memZero b hb
          omega
        · rw [if_neg hbc]
          exact h.memZero b hb

/-- Invariant of the outer `while queue:` loop. -/
structure KahnInv (g : StoryGraphM) (deg : String → Int)
    (queue result : List String) : Prop where
  nodup : (result ++ queue).Nodup
  subset : ∀ m ∈ result ++ queue, m ∈ g.nodes
  degEq : ∀ b, deg b = (indegC g b : Int) - (processedCount g result b : Int)
  zeroMem : ∀ b ∈ g.nodes, deg b = 0 → b ∈ result ++ queue
  memZero : ∀ b ∈ result ++ queue, deg b ≤ 0
  order : ∀ e ∈ g.edges, e.tgt ∈ result →
    ∃ l₁ l₂ l₃, result = l₁ ++ e.src :: l₂ ++ e.tgt :: l₃

theorem childTargets_subset (g : StoryGraphM) (hval : ValidEdges g)
    (n c : String) (hc : c ∈ childTargets g n) : c ∈ g.nodes := by
  unfold childTargets get_children at hc
  rw [List.map_map, List.mem_map] at hc
  obtain ⟨e, he, rfl⟩ := hc
  exact (hval e (List.mem_of_mem_filter he)).2

/-- Popping a node preserves the invariant. -/
theorem kahn_step (g : StoryGraphM) (hval : ValidEdges g) (deg : String → Int)
    (n : String) (q result : List String)
    (inv : KahnInv g deg (n :: q) result) :
    KahnInv g (processChildren (childTargets g n) deg q).1
      (processChildren (childTargets g n) deg q).2 (result ++ [n]) := by
  have hmemnq : ∀ m, m ∈ (result ++ [n]) ++ q ↔ m ∈ result ++ n :: q := by
    intro m
    rw [List.append_assoc, List.singleton_append]
  have hn_fresh : n ∉ result := by
    have := inv.nodup
    rw [List.nodup_append] at this
    intro hc
    exact this.2.2 hc (List.mem_cons_self _ _)
  have hmid : MidInv g (result ++ [n]) (childTargets g n) deg q := by
    refine ⟨?_, ?_, ?_, ?_, ?_, fun c hc => childTargets_subset g hval n c hc⟩
    · rw [List.append_assoc, List.singleton_append]
      exact inv.nodup
    · intro m hm
      exact inv.subset m ((hmemnq m).mp hm)
    · intro b
      rw [processedCount_append g b n result hn_fresh, childTargets_countP]
      have := inv.degEq b
      push_cast
      push_cast at this
      omega
    · intro b hb h0
      exact (hmemnq b).mpr (inv.zeroMem b hb h0)
    · intro b hb
      exact inv.memZero b ((hmemnq b).mp hb)
  have hend := processChildren_midinv g (result ++ [n]) (childTargets g n) deg q hmid
  refine ⟨hend.nodup, hend.subset, ?_, hend.zeroMem, hend.memZero, ?_⟩
  · intro b
    have := hend.degEq b
    simpa using this
  · intro e he htgt
    rcases List.mem_append.mp htgt with hin | hlast
    · obtain ⟨l₁, l₂, l₃, hdec⟩ := inv.order e he hin
      refine ⟨l₁, l₂, l₃ ++ [n], ?_⟩
      rw [hdec]
      simp
    · rw [List.mem_singleton] at hlast
      -- e.tgt = n, which was just popped: its degree is 0, so every edge into
      -- n has an already-emitted source
      have hdeg_le : deg n ≤ 0 := inv.memZero n (by simp)
      have hdeg_ge : (0 : Int) ≤ deg n := by
        rw [inv.degEq n]
        have := processedCount_le g result n
        omega
      have hPn : processedCount g result n = indegC g n := by
        have := inv.degEq n
        omega
      unfold processedCount indegC at hPn
      have hall := forall_of_countP_eq
        (fun e => e.tgt == n && decide (e.src ∈ result))
        (fun e => e.tgt == n) g.edges
        (fun a _ hp => (Bool.and_eq_true_iff.mp hp).1) hPn
      have hsrc : e.src ∈ result := by
        have h1 : (e.tgt == n) = true := by
          rw [hlast]
          exact beq_self_eq_true n
        have h2 := hall e he h1
        have := (Bool.and_eq_true_iff.mp h2).2
        exact of_decide_eq_true this
      obtain ⟨l₁, l₂, hsplit⟩ := List.append_of_mem hsrc
      refine ⟨l₁, l₂, [], ?_⟩
      rw [hsplit, hlast]

/-- At loop exit (empty queue) the invariant yields the postconditions. -/
theorem kahn_final (g : StoryGraphM) (deg : String → Int) (result : List String)
    (inv : KahnInv g deg [] result) :
    result.Nodup ∧ (∀ m ∈ result, m ∈ g.nodes) ∧
    (∀ e ∈ g.edges, e.tgt ∈ result →
      ∃ l₁ l₂ l₃, result = l₁ ++ e.src :: l₂ ++ e.tgt :: l₃) ∧
    (∀ b ∈ g.nodes, b ∉ result → ∃ e ∈ g.edges, e.tgt = b ∧ e.src ∉ result) := by
  refine ⟨by simpa using inv.nodup, fun m hm => inv.subset m (by simpa using hm),
    inv.order, ?_⟩
  intro b hb hbR
  have hne : deg b ≠ 0 := fun h0 => hbR (by simpa using inv.zeroMem b hb h0)
  have hlt : processedCount g result b < indegC g b := by
    have h1 := inv.degEq b
    have h2 := processedCount_le g result b
    omega
  unfold processedCount indegC at hlt
  obtain ⟨e, he, hq, hp⟩ := exists_of_countP_lt _ _ g.edges hlt
  refine ⟨e, he, by simpa using hq, ?_⟩
  intro hsrc
  rw [hq, Bool.true_and] at hp
  exact absurd hsrc (by simpa using hp)

/-- The loop with fuel at least `|nodes| - |result|` verifies the
postconditions: the fuel can never run out before the queue empties. -/
theorem kahnLoop_post (g : StoryGraphM) (hval : ValidEdges g) :
    ∀ (fuel : Nat) (deg : String → Int) (queue result : List String),
      KahnInv g deg queue result →
      g.nodes.length ≤ fuel + result.length →
      (kahnLoop g fuel deg queue result).Nodup ∧
      (∀ m ∈ kahnLoop g fuel deg queue result, m ∈ g.nodes) ∧
      (∀ e ∈ g.edges, e.tgt ∈ kahnLoop g fuel deg queue result →
        ∃ l₁ l₂ l₃, kahnLoop g fuel deg queue result =
          l₁ ++ e.src :: l₂ ++ e.tgt :: l₃) ∧
      (∀ b ∈ g.nodes, b ∉ kahnLoop g fuel deg queue result →
        ∃ e ∈ g.edges, e.tgt = b ∧ e.src ∉ kahnLoop g fuel deg queue result) := by
  intro fuel
  induction fuel with
  | zero =>
    intro deg queue result inv hfuel
    cases queue with
    | nil => exact kahn_final g deg result inv
    | cons m rest =>
      exfalso
      have hnd := inv.nodup
      have hsub : result ++ m :: rest ⊆ g.nodes := fun x hx => inv.subset x hx
      have hlen := (hnd.subperm hsub).length_le
      rw [List.length_append, List.length_cons] at hlen
      omega
  | succ fuel ih =>
    intro deg queue result inv hfuel
    cases queue with
    | nil => exact kahn_final g deg result inv
    | cons m rest =>
      have step := kahn_step g hval deg m rest result inv
      show (kahnLoop g fuel (processChildren (childTargets g m) deg rest).1
          (processChildren (childTargets g m) deg rest).2 (result ++ [m])).Nodup ∧ _
      exact ih _ _ _ step (by rw [List.length_append]; simp; omega)

/-- The initial state satisfies the invariant (nodes are dict keys, hence
distinct). -/
theorem kahnInit (g : StoryGraphM) (hnd : g.nodes.Nodup) :
    KahnInv g (kahnInitDeg g) (kahnInitQueue g) [] := by
  refine ⟨?_, ?_, ?_, ?_, ?_, ?_⟩
  · simpa using hnd.filter _
  · intro m hm
    rw [List.nil_append] at hm
    exact (List.mem_filter.mp hm).1
  · intro b
    unfold kahnInitDeg
    rw [get_parents_length, processedCount_nil]
    simp
  · intro b hb h0
    rw [List.nil_append]
    unfold kahnInitQueue
    rw [List.mem_filter]
    refine ⟨hb, ?_⟩
    simp [h0]
  · intro b hb
    rw [List.nil_append] at hb
    unfold kahnInitQueue at hb
    rw [List.mem_filter] at hb
    have := hb.2
    simp at this
    omega
  · intro e _ h
    exact absurd h (List.not_mem_nil _)

/-- Position of the first occurrence of `a` in `L`. -/
def posIn (L : List String) (a : String) : Nat := L.findIdx (fun x => x == a)

theorem posIn_append_cons (l₁ : List String) (a : String) (t : List String)
    (ha : a ∉ l₁) : posIn (l₁ ++ a :: t) a = l₁.length := by
  induction l₁ with
  | nil => simp [posIn, List.findIdx_cons]
  | cons c l ih =>
    have hac : ¬ c = a := by
      intro h
      exact ha (h ▸ List.mem_cons_self c l)
    have hca : (c == a) = false := by simp [hac]
    have hal : a ∉ l := fun h => ha (List.mem_cons_of_mem _ h)
    rw [List.cons_append]
    unfold posIn
    rw [List.findIdx_cons, hca]
    show (posIn (l ++ a :: t) a) + 1 = l.length + 1
    rw [ih hal]

theorem posIn_lt_of_middle (L : List String) (hnd : L.Nodup) (a b : String)
    (l₁ l₂ l₃ : List String) (h : L = l₁ ++ a :: l₂ ++ b :: l₃) :
    posIn L a < posIn L b := by
  subst h
  have hnd' := hnd
  rw [List.nodup_append] at hnd'
  have hbnot : b ∉ l₁ ++ a :: l₂ :=
    fun hb => hnd'.2.2 hb (List.mem_cons_self _ _)
  have hanot : a ∉ l₁ := by
    have h1 := hnd'.1
    rw [List.nodup_append] at h1
    exact fun ha => h1.2.2 ha (List.mem_cons_self _ _)
  have ha_eq : posIn (l₁ ++ a :: l₂ ++ b :: l₃) a = l₁.length := by
    rw [List.append_assoc, List.cons_append]
    exact posIn_append_cons l₁ a _ hanot
  have hb_eq : posIn (l₁ ++ a :: l₂ ++ b :: l₃) b = (l₁ ++ a :: l₂).length :=
    posIn_append_cons _ b l₃ hbnot
  rw [ha_eq, hb_eq, List.length_append, List.length_cons]
  omega

theorem middle_to_indices (L : List String) (a b : String)
    (l₁ l₂ l₃ : List String) (h : L = l₁ ++ a :: l₂ ++ b :: l₃) :
    ∃ i j : Nat, i < j ∧ L[i]? = some a ∧ L[j]? = some b := by
  subst h
  refine ⟨l₁.length, l₁.length + 1 + l₂.length, by omega, ?_, ?_⟩
  · rw [List.append_assoc, List.cons_append,
      List.getElem?_append_right (le_refl l₁.length), Nat.sub_self]
    simp
  · have hlen : (l₁ ++ a :: l₂).length = l₁.length + 1 + l₂.length := by
      rw [List.length_append, List.length_cons]
      omega
    rw [List.getElem?_append_right (by omega : (l₁ ++ a :: l₂).length ≤
      l₁.length + 1 + l₂.length), hlen, Nat.sub_self]
    simp

theorem transGen_lt (f : String → Nat) {R : String → String → Prop}
    (hord : ∀ a b, R a b → f a < f b) :
    ∀ {x y}, Relation.TransGen R x y → f x < f y := by
  intro x y h
  induction h with
  | single hr => exact hord _ _ hr
  | tail _ hr ih => exact lt_trans ih (hord _ _ hr)

/-- If every node of a nonempty set has an in-edge from the set, the graph
has a cycle (iterate predecessors and apply the pigeonhole principle). -/
theorem cycle_of_stuck (g : StoryGraphM) (S : List String) (hne : S ≠ [])
    (hstep : ∀ b ∈ S, ∃ a, a ∈ S ∧ edgeRel g a b) : HasCycle g := by
  obtain ⟨b₀, hb₀⟩ := List.exists_mem_of_ne_nil S hne
  have hstep' : ∀ x : {x : String // x ∈ S}, ∃ y : {x : String // x ∈ S},
      edgeRel g y.1 x.1 := by
    rintro ⟨x, hx⟩
    obtain ⟨a, haS, hae⟩ := hstep x hx
    exact ⟨⟨a, haS⟩, hae⟩
  choose F hF using hstep'
  have hedge : ∀ m : Nat, edgeRel g (F^[m + 1] ⟨b₀, hb₀⟩).1 (F^[m] ⟨b₀, hb₀⟩).1 := by
    intro m
    rw [Function.iterate_succ_apply' F m]
    exact hF _
  have hchain : ∀ m d : Nat,
      Relation.TransGen (edgeRel g) (F^[m + d + 1] ⟨b₀, hb₀⟩).1 (F^[m] ⟨b₀, hb₀⟩).1 := by
    intro m d
    induction d with
    | zero => exact Relation.TransGen.single (hedge m)
    | succ d ih =>
      have h1 := hedge (m + d + 1)
      have h2 : m + (d + 1) + 1 = m + d + 1 + 1 := by omega
      rw [h2]
      exact Relation.TransGen.head h1 ih
  have hmaps : ∀ m ∈ Finset.range (S.toFinset.card + 1),
      (F^[m] ⟨b₀, hb₀⟩).1 ∈ S.toFinset := by
    intro m _
    rw [List.mem_toFinset]
    exact (F^[m] ⟨b₀, hb₀⟩).2
  have hcard : S.toFinset.card < (Finset.range (S.toFinset.card + 1)).card := by
    rw [Finset.card_range]
    omega
  obtain ⟨i, _, j, _, hij, heq⟩ :=
    Finset.exists_ne_map_eq_of_card_lt_of_maps_to hcard hmaps
  have hbuild : ∀ i j : Nat, i < j → (F^[i] ⟨b₀, hb₀⟩).1 = (F^[j] ⟨b₀, hb₀⟩).1 →
      HasCycle g := by
    intro i j hlt he
    have h1 := hchain i (j - i - 1)
    have h2 : i + (j - i - 1) + 1 = j := by omega
    rw [h2] at h1
    rw [he] at h1
    exact ⟨_, h1⟩
  rcases Nat.lt_or_ge i j with hlt | hge
  · exact hbuild i j hlt heq
  · have hlt : j < i := lt_of_le_of_ne hge (fun h => hij h.symm)
    exact hbuild j i hlt heq.symm

/-- C2.  For every graph whose edges all reference existing (distinct) nodes:
if the graph is acyclic, `topological_sort` returns a permutation of the node
ids in which every edge's source strictly precedes its target; if the graph
contains a cycle, it returns the empty list — the detectable failure value
(`validate` treats `[]` as "graph has a cycle"). -/
theorem C2_topological_sort_correct (g : StoryGraphM)
    (hval : ValidEdges g) (hnd : g.nodes.Nodup) :
    (¬ HasCycle g →
      (topological_sort g).Perm g.nodes ∧
      ∀ e ∈ g.edges, ∃ i j : Nat, i < j ∧ (topological_sort g)[i]? = some e.src ∧
        (topological_sort g)[j]? = some e.tgt) ∧
    (HasCycle g → topological_sort g = []) := by
  have hpost : (kahnRun g).Nodup ∧ (∀ m ∈ kahnRun g, m ∈ g.nodes) ∧
      (∀ e ∈ g.edges, e.tgt ∈ kahnRun g →
        ∃ l₁ l₂ l₃, kahnRun g = l₁ ++ e.src :: l₂ ++ e.tgt :: l₃) ∧
      (∀ b ∈ g.nodes, b ∉ kahnRun g →
        ∃ e ∈ g.edges, e.tgt = b ∧ e.src ∉ kahnRun g) :=
    kahnLoop_post g hval g.nodes.length (kahnInitDeg g) (kahnInitQueue g) []
      (kahnInit g hnd) (by simp)
  obtain ⟨hndR, hsubR, horder, hstuck⟩ := hpost
  by_cases hlen : (kahnRun g).length = g.nodes.length
  · have hts : topological_sort g = kahnRun g := by
      unfold topological_sort
      rw [if_pos hlen]
    have hperm : (kahnRun g).Perm g.nodes :=
      (hndR.subperm (fun m hm => hsubR m hm)).perm_of_length_le (by omega)
    have hord : ∀ a b, edgeRel g a b → posIn (kahnRun g) a < posIn (kahnRun g) b := by
      rintro a b ⟨e, he, rfl, rfl⟩
      have htgt : e.tgt ∈ kahnRun g :=
        hperm.mem_iff.mpr (hval e he).2
      obtain ⟨l₁, l₂, l₃, hdec⟩ := horder e he htgt
      exact posIn_lt_of_middle _ hndR _ _ _ _ _ hdec
    constructor
    · intro _
      rw [hts]
      refine ⟨hperm, ?_⟩
      intro e he
      have htgt : e.tgt ∈ kahnRun g := hperm.mem_iff.mpr (hval e he).2
      obtain ⟨l₁, l₂, l₃, hdec⟩ := horder e he htgt
      exact middle_to_indices _ _ _ _ _ _ hdec
    · rintro ⟨v, hv⟩
      exact absurd (transGen_lt (posIn (kahnRun g)) hord hv) (lt_irrefl _)
  · have hts : topological_sort g = [] := by
      unfold topological_sort
      rw [if_neg hlen]
    refine ⟨?_, fun _ => hts⟩
    intro hnc
    exfalso
    apply hnc
    -- some node was never emitted
    have hex : ∃ b ∈ g.nodes, b ∉ kahnRun g := by
      by_contra hall
      push_neg at hall
      have h1 : g.nodes.length ≤ (kahnRun g).length :=
        (hnd.subperm hall).length_le
      have h2 : (kahnRun g).length ≤ g.nodes.length :=
        (hndR.subperm (fun m hm => hsubR m hm)).length_le
      omega
    obtain ⟨b, hbn, hbR⟩ := hex
    apply cycle_of_stuck g
      (g.nodes.filter (fun x => !(decide (x ∈ kahnRun g))))
    · apply List.ne_nil_of_mem (a := b)
      rw [List.mem_filter]
      exact ⟨hbn, by simp [hbR]⟩
    · intro c hc
      rw [List.mem_filter] at hc
      have hcR : c ∉ kahnRun g := by
        have := hc.2
        simp at this
        exact this
      obtain ⟨e, he, htgt, hsrc⟩ := hstuck c hc.1 hcR
      refine ⟨e.src, ?_, ⟨e, he, rfl, htgt⟩⟩
      rw [List.mem_filter]
      exact ⟨(hval e he).1, by simp [hsrc]⟩

/-- Witness for C2: the linear graph `root→A (auto), A→B ("go")` from the
spec's round-trip example — valid, duplicate-free, and `topological_sort`
evaluates to the full order. -/
theorem C2_topological_sort_witness :
    ValidEdges lineGraph ∧ lineGraph.nodes.Nodup ∧
    topological_sort lineGraph = ["root", "A", "B"] ∧
    ((¬ HasCycle lineGraph →
      (topological_sort lineGraph).Perm lineGraph.nodes ∧
      ∀ e ∈ lineGraph.edges, ∃ i j : Nat, i < j ∧
        (topological_sort lineGraph)[i]? = some e.src ∧
        (topological_sort lineGraph)[j]? = some e.tgt) ∧
    (HasCycle lineGraph → topological_sort lineGraph = [])) :=
  ⟨by decide, by decide, by decide,
    C2_topological_sort_correct lineGraph (by decide) (by decide)⟩

end KahnProof

end AIVN
